import Mathlib

/-!
Verification development for the fund-tracker repository
(`scraper.py` and `market_scraper.py`).

The Python code passes calendar dates around as strings in two formats:
`YYYYMMDD` (request keys and the `unavailable_dates` list) and `YYYY-MM-DD`
(history keys, produced by `strftime`).  Both formats encode the
(year, month, day) triple bijectively (for four-digit years) and the code
always converts before comparing like with like
(`iso_date = f"{d[:4]}-{d[4:6]}-{d[6:8]}"`), so the embedding carries the
triple itself as `Date`.  Floats are modelled by `ℚ`.  Python dicts are
modelled by association lists in insertion order (lookup and update hit the
first matching key; the code never creates duplicate keys).
-/

namespace FundTracker

/-- A calendar date: the (year, month, day) triple denoted by the Python
date strings. -/
structure Date where
  y : Nat
  m : Nat
  d : Nat
deriving DecidableEq, Repr

/-- Lexicographic order on dates.  Comparison and sorting of the Python date
strings (`sorted`, `list.sort(key=lambda x: x['date'])`) is lexicographic on
zero-padded strings, which coincides with this order on the triples. -/
def dateLe (a b : Date) : Prop :=
  a.y < b.y ∨ (a.y = b.y ∧ (a.m < b.m ∨ (a.m = b.m ∧ a.d ≤ b.d)))

instance : DecidablePred fun p : Date × Date => dateLe p.1 p.2 := by
  intro p; unfold dateLe; infer_instance

instance (a b : Date) : Decidable (dateLe a b) := by
  unfold dateLe; infer_instance

/-- Strict version of `dateLe`: the `<` of the spec's ordering invariant. -/
def dateLt (a b : Date) : Prop :=
  a.y < b.y ∨ (a.y = b.y ∧ (a.m < b.m ∨ (a.m = b.m ∧ a.d < b.d)))

instance (a b : Date) : Decidable (dateLt a b) := by
  unfold dateLt; infer_instance

instance : IsTotal Date dateLe where
  total := by
    intro a b
    rcases a with ⟨ay, am, ad⟩
    rcases b with ⟨by_, bm, bd⟩
    unfold dateLe
    dsimp only
    omega

instance : IsTrans Date dateLe where
  trans := by
    intro a b c hab hbc
    rcases a with ⟨ay, am, ad⟩
    rcases b with ⟨by_, bm, bd⟩
    rcases c with ⟨cy, cm, cd⟩
    unfold dateLe at *
    dsimp only at *
    omega

/-- Serial day number of a date (civil-calendar day count, valid for years
≥ 1).  Models the `.days` of a Python `datetime.date` subtraction. -/
def daysFromCivil (dt : Date) : Nat :=
  let yy := if dt.m ≤ 2 then dt.y - 1 else dt.y
  let era := yy / 400
  let yoe := yy % 400
  let mp := (dt.m + 9) % 12
  let doy := (153 * mp + 2) / 5 + (dt.d - 1)
  let doe := yoe * 365 + yoe / 4 - yoe / 100 + doy
  era * 146097 + doe

/-- Python `date.weekday()`: Monday = 0 … Sunday = 6.  (Calibrated so that
2024-01-01, a Monday, maps to 0.) -/
def weekday (dt : Date) : Nat := (daysFromCivil dt + 2) % 7

/-- `abs((returned - requested).days)` from `scrape_multiple_dates`. -/
def dateDiffAbs (a b : Date) : Nat :=
  ((daysFromCivil a : Int) - (daysFromCivil b : Int)).natAbs

/-- The tracked funds, `FUNDS` in scraper.py: (fund_code, friendly_name). -/
def FUNDS : List (String × String) :=
  [("RBF5736", "RBC Intl Equity Currency Neutral"),
   ("RBF2146", "RBC Global Equity Index"),
   ("RBF2142", "RBC Canadian Equity Index"),
   ("RBF5150", "PH&N Dividend Income"),
   ("RBF2143", "RBC U.S. Equity Index"),
   ("RBF1691", "RBC Core Plus Bond Pool"),
   ("RBF5280", "PH&N High Yield Bond")]

/-- One entry of a fund's `history` list in data.json:
`{"date": ..., "nav": ..., "change_percent": ...}`.  `nav` is `Option`-typed
because a JSON value may in principle be null; the claims investigate
whether the merge ever stores a null nav. -/
structure HistoryEntry where
  date : Date
  nav : Option ℚ
  change_percent : Option ℚ
deriving DecidableEq, Repr

/-- One value of the `funds` dict in data.json: `{"name": ..., "history": [...]}`. -/
structure FundData where
  name : String
  history : List HistoryEntry
deriving DecidableEq, Repr

/-- First-match lookup in an association list, modelling Python dict
indexing / `in`. -/
def dlookup {κ α : Type} [DecidableEq κ] : List (κ × α) → κ → Option α
  | [], _ => none
  | p :: rest, k => if p.1 = k then some p.2 else dlookup rest k

/-- First-match in-place update, modelling assignment to an existing dict key. -/
def dset {κ α : Type} [DecidableEq κ] : List (κ × α) → κ → (α → α) → List (κ × α)
  | [], _, _ => []
  | p :: rest, k, f => if p.1 = k then (p.1, f p.2) :: rest else p :: dset rest k f

/-- The persisted store data.json (top level). -/
structure StoreData where
  funds : List (String × FundData)
  unavailable_dates : List Date
  last_checked : String
  last_updated : String
  rbc_data_date : Option Date
deriving DecidableEq, Repr

/-- `load_data`'s default when data.json does not exist yet. -/
def initial_data : StoreData :=
  { funds := FUNDS.map fun fp => (fp.1, { name := fp.2, history := [] })
    unavailable_dates := []
    last_checked := ""
    last_updated := ""
    rbc_data_date := none }

/-- Abstraction of one rendered prices page: what the two text extractors
(`parse_as_of_date` and the per-fund regex search in
`extract_funds_from_list_page`) can read off it.  `asOf = none` models a page
on which the "Fund price/yield as of" date cannot be parsed; `nav c = none`
models a fund code that is absent from the page text or has no 4-decimal
number nearby. -/
structure Page where
  asOf : Option Date
  nav : String → Option ℚ
  change_percent : String → Option ℚ

/-- One extracted fund result dict from `extract_funds_from_list_page`. -/
structure FundResult where
  fund_code : String
  fund_name : String
  nav : Option ℚ
  change_percent : Option ℚ
  date : Date
deriving DecidableEq, Repr

/-- `extract_funds_from_list_page`: one result dict per tracked fund, in
`FUNDS` order, with `nav`/`change_percent` as found on the page (possibly
None) and `date` set to the page's actual date. -/
def extract_funds_from_list_page (page : Page) (actual_date : Date) : List FundResult :=
  FUNDS.map fun fp =>
    { fund_code := fp.1
      fund_name := fp.2
      nav := page.nav fp.1
      change_percent := page.change_percent fp.1
      date := actual_date }

/-- `skipped_dates.add(d)` — `skipped_dates` is a Python set, modelled as a
duplicate-free list in insertion order. -/
def addSkipped (sk : List Date) (d : Date) : List Date :=
  if d ∈ sk then sk else sk ++ [d]

/-- State of the loop in `scrape_multiple_dates`: the `all_results` dict
(actual ISO date → extracted fund results, in insertion order) and the
`skipped_dates` set. -/
abbrev ScrapeState := List (Date × List FundResult) × List Date

/-- The per-date loop body of `scrape_multiple_dates` after the page has
rendered, applied to the parsed "as of" date (`none` = could not parse:
add to skipped_dates and continue).  An out-of-range date (difference
beyond 5 days) is also skipped; a substituted date marks the requested one
skipped; an actual date already present in `all_results` is not re-merged. -/
def scrapeStepParsed (st : ScrapeState) (r : Date) (page : Page) :
    Option Date → ScrapeState
  | none => (st.1, addSkipped st.2 r)
  | some a =>
    if 5 < dateDiffAbs a r then (st.1, addSkipped st.2 r)
    else
      let sk := if a ≠ r then addSkipped st.2 r else st.2
      if (dlookup st.1 a).isSome then (st.1, sk)
      else (st.1 ++ [(a, extract_funds_from_list_page page a)], sk)

/-- The per-date loop body applied to the fetch outcome (`none` = an
exception during navigation — caught, logged, loop continues). -/
def scrapeStepFetched (st : ScrapeState) (r : Date) : Option Page → ScrapeState
  | none => st
  | some page => scrapeStepParsed st r page page.asOf

/-- One iteration of the per-date loop in `scrape_multiple_dates`.  A fetch
is a function from the requested date to the fetch outcome. -/
def scrapeStep (fetch : Date → Option Page) (st : ScrapeState) (r : Date) : ScrapeState :=
  scrapeStepFetched st r (fetch r)

/-- `scrape_multiple_dates`: fold the per-date loop over the requested dates. -/
def scrape_multiple_dates (fetch : Date → Option Page) (dates_to_scrape : List Date) :
    ScrapeState :=
  dates_to_scrape.foldl (scrapeStep fetch) ([], [])

/-- Date order lifted to history entries (the sort key
`lambda x: x['date']`). -/
def entryLe (e1 e2 : HistoryEntry) : Prop := dateLe e1.date e2.date

instance : DecidableRel entryLe := fun e1 e2 => by unfold entryLe; infer_instance

instance : IsTotal HistoryEntry entryLe :=
  ⟨fun e1 e2 => IsTotal.total (r := dateLe) e1.date e2.date⟩

instance : IsTrans HistoryEntry entryLe :=
  ⟨fun _ _ _ h1 h2 => IsTrans.trans (r := dateLe) _ _ _ h1 h2⟩

/-- Sorting a fund's history, `history.sort(key=lambda x: x['date'])`.
Python's sort is stable; `insertionSort` computes the same (unique) stable
sort for this total preorder. -/
def sortHistory (h : List HistoryEntry) : List HistoryEntry :=
  List.insertionSort entryLe h

/-- `sorted` on a collection of date strings. -/
def sortDates (l : List Date) : List Date := List.insertionSort dateLe l

/-- Python `sorted(set(xs))` builds the set first: deduplicate, then sort. -/
def dedupDates (l : List Date) : List Date :=
  l.foldl (fun acc d => if d ∈ acc then acc else acc ++ [d]) []

/-- The fund-initialisation step at the top of the merge loop body:
`if fund_code not in data['funds']: data['funds'][fund_code] = {...}`. -/
def initFund (funds : List (String × FundData)) (r : FundResult) :
    List (String × FundData) :=
  if (dlookup funds r.fund_code).isSome then funds
  else funds ++ [(r.fund_code, { name := r.fund_name, history := [] })]

/-- The per-result body of the merge loop in `update_json_data`: initialise
the fund entry if absent, then append the observation unless its nav is None
or an entry for that exact date already exists. -/
def appendResult (funds : List (String × FundData)) (r : FundResult) :
    List (String × FundData) :=
  let funds := initFund funds r
  match r.nav with
  | none => funds
  | some v =>
    dset funds r.fund_code fun fd =>
      if r.date ∈ fd.history.map (·.date) then fd
      else { fd with history := fd.history ++
              [{ date := r.date, nav := some v, change_percent := r.change_percent }] }

/-- One iteration of the outer per-date loop of `update_json_data`: merge the
date's results, then re-sort every fund's history. -/
def processDate (funds : List (String × FundData)) (b : Date × List FundResult) :
    List (String × FundData) :=
  let funds := b.2.foldl appendResult funds
  funds.map fun p => (p.1, { p.2 with history := sortHistory p.2.history })

/-- `update_json_data`: merge all fetched results into the store, record
skipped dates as unavailable, refresh timestamps and `rbc_data_date`.
`now` stands for the `datetime.now(timezone.utc)` timestamp string. -/
def update_json_data (data : StoreData) (all_results : List (Date × List FundResult))
    (skipped_dates : List Date) (now : String) : StoreData :=
  let funds := all_results.foldl processDate data.funds
  let unavailable :=
    if skipped_dates = [] then data.unavailable_dates
    else sortDates (dedupDates (data.unavailable_dates ++ skipped_dates))
  let all_dates := sortDates (all_results.map (·.1))
  { funds := funds
    unavailable_dates := unavailable
    last_checked := now
    last_updated := now
    rbc_data_date := if all_dates = [] then data.rbc_data_date else all_dates.getLast? }

/-- The intersection-membership test of `get_missing_dates`: a date counts as
present only when every tracked fund's history contains it (a fund missing
from the store contributes the empty set, so nothing is present). -/
def allFundsHave (funds : List (String × FundData)) (dt : Date) : Bool :=
  FUNDS.all fun fp =>
    match dlookup funds fp.1 with
    | some fd => fd.history.any fun h => decide (h.date = dt)
    | none => false

/-- `get_missing_dates`, parameterised by the business-day window it computes
via `get_business_days(num_days)`: keep the window dates that are neither
covered by every fund nor recorded unavailable, in window order. -/
def get_missing_dates (data : StoreData) (window : List Date) : List Date :=
  window.filter fun d =>
    !allFundsHave data.funds d && !decide (d ∈ data.unavailable_dates)

/-- `isLeap`/`daysInMonth`/`prevDay`: calendar stepping used by
`timedelta(days=1)` subtraction in `get_business_days`. -/
def isLeap (yr : Nat) : Bool := yr % 4 = 0 && (yr % 100 ≠ 0 || yr % 400 = 0)

def daysInMonth (yr mo : Nat) : Nat :=
  if mo = 2 then (if isLeap yr then 29 else 28)
  else if mo = 4 ∨ mo = 6 ∨ mo = 9 ∨ mo = 11 then 30
  else 31

def prevDay (dt : Date) : Date :=
  if 1 < dt.d then ⟨dt.y, dt.m, dt.d - 1⟩
  else if 1 < dt.m then ⟨dt.y, dt.m - 1, daysInMonth dt.y (dt.m - 1)⟩
  else ⟨dt.y - 1, 12, 31⟩

/-- The while-loop of `get_business_days`, with explicit fuel (any 7k
consecutive days contain 5k weekdays, so the fuel below never runs out for
the counts the program uses). -/
def businessDaysAux : Nat → Nat → Date → List Date
  | 0, _, _ => []
  | _, 0, _ => []
  | fuel + 1, need, cur =>
    if weekday cur < 5 then cur :: businessDaysAux fuel (need - 1) (prevDay cur)
    else businessDaysAux fuel need (prevDay cur)

/-- `get_business_days`: most-recent-first weekdays walking back from
`end_date`. -/
def get_business_days (num_days : Nat) (end_date : Date) : List Date :=
  businessDaysAux (7 * num_days + 7) num_days end_date

/-- One incremental (non-backfill) run of scraper.py's `main` on a readable
store: compute missing dates; if none, return without touching the store;
otherwise scrape and merge. -/
def runScraper (fetch : Date → Option Page) (window : List Date) (now : String)
    (data : StoreData) : StoreData :=
  let missing := get_missing_dates data window
  if missing = [] then data
  else
    let rs := scrape_multiple_dates fetch missing
    update_json_data data rs.1 rs.2 now

/-- `main`'s process exit status together with the resulting store.  Every
per-date fetch failure is caught inside `scrape_multiple_dates` (the
`except` around the loop body logs and continues), so `main` returns
normally — exit status 0 — on every run whose store was readable, whatever
the fetch outcomes. -/
def scraper_main (fetch : Date → Option Page) (window : List Date) (now : String)
    (data : StoreData) : Nat × StoreData :=
  (0, runScraper fetch window now data)

/-! ## market_scraper.py -/

/-- Python `round(x, 2)` (round half to even), modelled exactly on ℚ:
`q * 100 = a / b` with `b > 0`; take the floor `f` and remainder `r` and
round up, down, or to the even neighbour on a tie. -/
def round2 (q : ℚ) : ℚ :=
  let a : Int := q.num * 100
  let b : Int := (q.den : Int)
  let f : Int := a.fdiv b
  let r : Int := a.fmod b
  let n : Int :=
    if b < 2 * r then f + 1
    else if 2 * r < b then f
    else if f % 2 = 0 then f else f + 1
  Rat.divInt n 100

/-- One entry of a ticker's `history` in market_data.json:
`{"date": ..., "close": ...}`. -/
structure IndexEntry where
  date : Date
  close : ℚ
deriving DecidableEq, Repr

/-- Date order lifted to index entries. -/
def idxLe (e1 e2 : IndexEntry) : Prop := dateLe e1.date e2.date

instance : DecidableRel idxLe := fun e1 e2 => by unfold idxLe; infer_instance

instance : IsTotal IndexEntry idxLe :=
  ⟨fun e1 e2 => IsTotal.total (r := dateLe) e1.date e2.date⟩

instance : IsTrans IndexEntry idxLe :=
  ⟨fun _ _ _ h1 h2 => IsTrans.trans (r := dateLe) _ _ _ h1 h2⟩

/-- `history.sort(key=lambda x: x["date"])` in market_scraper.py (stable,
like Python's sort). -/
def sortIndexHistory (h : List IndexEntry) : List IndexEntry :=
  List.insertionSort idxLe h

/-- The per-ticker update loop body in market_scraper.py's `main`: collect
the set of dates already stored (computed once, before the loop), append each
fetched (date, close) whose date is not among them, re-sort by date, and keep
only the most recent 260 entries (`history[-260:]`). -/
def updateTickerHistory (hist : List IndexEntry) (fetched : List (Date × ℚ)) :
    List IndexEntry :=
  let existing := hist.map (·.date)
  let h1 := fetched.foldl
    (fun h p => if p.1 ∈ existing then h else h ++ [{ date := p.1, close := round2 p.2 }])
    hist
  let h2 := sortIndexHistory h1
  if 260 < h2.length then h2.drop (h2.length - 260) else h2

/-! ## The `save_data` persistence step, as a file-operation trace -/

/-- File-system operations.  `openTrunc` is `open(path, "w")` (truncates the
file at once); `rename` is the `os.replace`-style step that a
write-temp-then-replace implementation would use. -/
inductive FsOp where
  | openTrunc (path : String)
  | writeAll (path : String) (payload : String)
  | closeFile (path : String)
  | rename (src dst : String)
deriving DecidableEq, Repr

/-- The operation trace of `save_data(data)` — identical in scraper.py and
market_scraper.py: `with open(path, "w") as f: json.dump(data, f, indent=2)`
truncates the target in place and streams the serialised payload into it.
`payload` abstracts `json.dumps(data, indent=2)`. -/
def save_data (path payload : String) : List FsOp :=
  [FsOp.openTrunc path, FsOp.writeAll path payload, FsOp.closeFile path]

/-- Effect of one operation on the file system (path → contents, `none` =
file absent). -/
def applyFsOp (fs : String → Option String) : FsOp → String → Option String
  | FsOp.openTrunc p, q => if q = p then some "" else fs q
  | FsOp.writeAll p s, q => if q = p then some ((fs p).getD "" ++ s) else fs q
  | FsOp.closeFile _, q => fs q
  | FsOp.rename src dst, q =>
      if q = src then none else if q = dst then fs src else fs q

/-- Final file system after running a trace. -/
def runFsOps (fs : String → Option String) (ops : List FsOp) : String → Option String :=
  ops.foldl applyFsOp fs

/-- All file-system states visible while a trace runs: before the first
operation and after every prefix. -/
def fsStates (fs : String → Option String) : List FsOp → List (String → Option String)
  | [] => [fs]
  | op :: rest => fs :: fsStates (applyFsOp fs op) rest

/-- Write-temp-then-replace semantics for `path` over a trace: every state a
concurrent or subsequent reader of `path` can observe holds either the old
contents or the final contents — never a partially written file. -/
def atomicFor (path : String) (fs0 : String → Option String) (ops : List FsOp) : Prop :=
  ∀ st ∈ fsStates fs0 ops, st path = fs0 path ∨ st path = runFsOps fs0 ops path

/-- A page whose every fund row shows the same data — a convenient concrete
fixture for runs: `asOf` is the parsed "as of" date, `v` the nav shown for
every fund code. -/
def constPage (a : Option Date) (v : Option ℚ) : Page :=
  { asOf := a, nav := fun _ => v, change_percent := fun _ => none }

/-! ## Claim-level predicates -/

/-- Spec-side coverage predicate: every tracked fund's stored history has an
entry for `dt`. -/
def presentForAll (data : StoreData) (dt : Date) : Prop :=
  ∀ fp ∈ FUNDS, ∃ fd, dlookup data.funds fp.1 = some fd ∧ ∃ e ∈ fd.history, e.date = dt

/-- Every persisted history entry of every fund has a non-null nav. -/
def NavsPresent (funds : List (String × FundData)) : Prop :=
  ∀ p ∈ funds, ∀ e ∈ p.2.history, e.nav ≠ none

instance : DecidablePred NavsPresent := fun funds => by
  unfold NavsPresent; infer_instance

/-- Store-evolution order on funds dicts: every fund present before stays
present, keeping at least its stored dates. -/
def FundsLe (f1 f2 : List (String × FundData)) : Prop :=
  ∀ c fd, dlookup f1 c = some fd → ∃ fd', dlookup f2 c = some fd' ∧
    ∀ dt ∈ fd.history.map (·.date), dt ∈ fd'.history.map (·.date)

/-- What the merge guarantees for an observation it processed: its fund
exists in the dict and, when its nav is non-null, its date is stored. -/
def ResultStored (funds : List (String × FundData)) (r : FundResult) : Prop :=
  ∃ fd, dlookup funds r.fund_code = some fd ∧
    ∀ v, r.nav = some v → r.date ∈ fd.history.map (·.date)

/-- C1's invariant for one fund history: strictly increasing by date. -/
def HistStrict (h : List HistoryEntry) : Prop :=
  h.Pairwise fun e1 e2 => dateLt e1.date e2.date

instance : DecidablePred HistStrict := fun h => by
  unfold HistStrict; infer_instance

/-- C1's invariant for one index history: strictly increasing by date. -/
def IdxStrict (h : List IndexEntry) : Prop :=
  h.Pairwise fun e1 e2 => dateLt e1.date e2.date

instance : DecidablePred IdxStrict := fun h => by
  unfold IdxStrict; infer_instance

/-- Per-fund date uniqueness across the whole funds dict. -/
def AllND (funds : List (String × FundData)) : Prop :=
  ∀ p ∈ funds, (p.2.history.map (·.date)).Nodup

/-- An unchanged Quote Source across and within runs: the source is a
function of the requested date, and two pages reporting the same as_of date
show the same per-fund navs (the rendered page for a given as_of date is
one page). -/
def ConsistentSource (fetch : Date → Option Page) : Prop :=
  ∀ r1 r2 p1 p2 a, fetch r1 = some p1 → fetch r2 = some p2 →
    p1.asOf = some a → p2.asOf = some a → p1.nav = p2.nav

/-- Provenance of a binding of the run's result dict: some request produced
a page whose in-range as_of date keys the extracted batch. -/
def GoodBinding (fetch : Date → Option Page) (dates : List Date)
    (b : Date × List FundResult) : Prop :=
  ∃ r ∈ dates, ∃ p, fetch r = some p ∧ p.asOf = some b.1 ∧
    ¬ 5 < dateDiffAbs b.1 r ∧ b.2 = extract_funds_from_list_page p b.1

/-- Concrete one-page source for the idempotence witness: requesting
2024-01-08 renders that day's page, any other request fails. -/
def wFetch : Date → Option Page :=
  fun r => if r = ⟨2024, 1, 8⟩ then some (constPage (some ⟨2024, 1, 8⟩) (some 10)) else none

/-! ## Date-order lemmas -/

theorem dateLe_trans {a b c : Date} (h1 : dateLe a b) (h2 : dateLe b c) : dateLe a c := by
  rcases a with ⟨ay, am, ad⟩; rcases b with ⟨by_, bm, bd⟩; rcases c with ⟨cy, cm, cd⟩
  unfold dateLe at *; dsimp only at *; omega

theorem dateLe_total (a b : Date) : dateLe a b ∨ dateLe b a := by
  rcases a with ⟨ay, am, ad⟩; rcases b with ⟨by_, bm, bd⟩
  unfold dateLe; dsimp only; omega

theorem dateLe_antisymm {a b : Date} (h1 : dateLe a b) (h2 : dateLe b a) : a = b := by
  rcases a with ⟨ay, am, ad⟩; rcases b with ⟨by_, bm, bd⟩
  unfold dateLe at *; dsimp only at *
  have : ay = by_ ∧ am = bm ∧ ad = bd := by omega
  simp [this.1, this.2.1, this.2.2]

theorem dateLt_iff {a b : Date} : dateLt a b ↔ (dateLe a b ∧ a ≠ b) := by
  rcases a with ⟨ay, am, ad⟩; rcases b with ⟨by_, bm, bd⟩
  unfold dateLt dateLe
  dsimp only
  constructor
  · intro h
    refine ⟨by omega, ?_⟩
    intro hc
    injection hc with h1 h2 h3
    omega
  · rintro ⟨h1, h2⟩
    by_contra hc
    have : ay = by_ ∧ am = bm ∧ ad = bd := by omega
    exact h2 (by simp [this.1, this.2.1, this.2.2])

/-! ## Association-list (dict) lemmas -/

theorem dlookup_eq_none {κ α : Type} [DecidableEq κ] {l : List (κ × α)} {k : κ} :
    dlookup l k = none ↔ k ∉ l.map (·.1) := by
  induction l with
  | nil => simp [dlookup]
  | cons q rest ih =>
    obtain ⟨qk, qv⟩ := q
    unfold dlookup
    by_cases hq : qk = k
    · simp [hq]
    · rw [if_neg hq]
      simp only [List.map_cons, List.mem_cons]
      rw [ih]
      constructor
      · intro h
        rintro (h2 | h2)
        · exact hq h2.symm
        · exact h h2
      · intro h h2
        exact h (Or.inr h2)

theorem dlookup_append {κ α : Type} [DecidableEq κ] (l1 l2 : List (κ × α)) (k : κ) :
    dlookup (l1 ++ l2) k =
      match dlookup l1 k with
      | some v => some v
      | none => dlookup l2 k := by
  induction l1 with
  | nil => rfl
  | cons q rest ih =>
    obtain ⟨qk, qv⟩ := q
    show (if qk = k then some qv else dlookup (rest ++ l2) k) = _
    by_cases hq : qk = k
    · simp [dlookup, hq]
    · simp only [if_neg hq, ih]
      show _ = (match (if qk = k then some qv else dlookup rest k) with
        | some v => some v | none => dlookup l2 k)
      rw [if_neg hq]

theorem mem_dset {κ α : Type} [DecidableEq κ] {l : List (κ × α)} {k : κ} {f : α → α}
    {p : κ × α} (hp : p ∈ dset l k f) : p ∈ l ∨ ∃ q ∈ l, p = (q.1, f q.2) := by
  induction l with
  | nil => simp [dset] at hp
  | cons q rest ih =>
    unfold dset at hp
    by_cases hq : q.1 = k
    · rw [if_pos hq] at hp
      rcases List.mem_cons.mp hp with h | h
      · right; exact ⟨q, List.mem_cons_self .., h⟩
      · left; exact List.mem_cons_of_mem _ h
    · rw [if_neg hq] at hp
      rcases List.mem_cons.mp hp with h | h
      · left; rw [h]; exact List.mem_cons_self ..
      · rcases ih h with h2 | h2
        · left; exact List.mem_cons_of_mem _ h2
        · obtain ⟨r, hr, hpr⟩ := h2
          right; exact ⟨r, List.mem_cons_of_mem _ hr, hpr⟩

theorem dlookup_dset_self {κ α : Type} [DecidableEq κ] (l : List (κ × α)) (k : κ) (f : α → α) :
    dlookup (dset l k f) k = (dlookup l k).map f := by
  induction l with
  | nil => simp [dlookup, dset]
  | cons q rest ih =>
    unfold dset dlookup
    by_cases hq : q.1 = k
    · simp [hq, dlookup]
    · simp [hq, dlookup, ih]

theorem dlookup_dset_other {κ α : Type} [DecidableEq κ] (l : List (κ × α)) (k k' : κ)
    (f : α → α) (hne : k' ≠ k) : dlookup (dset l k f) k' = dlookup l k' := by
  induction l with
  | nil => simp [dset]
  | cons q rest ih =>
    obtain ⟨qk, qv⟩ := q
    show dlookup (if qk = k then (qk, f qv) :: rest else (qk, qv) :: dset rest k f) k' = _
    by_cases hq : qk = k
    · have hq' : ¬ qk = k' := fun h => hne (h ▸ hq ▸ rfl)
      rw [if_pos hq]
      show (if qk = k' then some (f qv) else dlookup rest k') = _
      rw [if_neg hq']
      show _ = (if qk = k' then some qv else dlookup rest k')
      rw [if_neg hq']
    · rw [if_neg hq]
      show (if qk = k' then some qv else dlookup (dset rest k f) k') = _
      by_cases hq' : qk = k'
      · rw [if_pos hq']
        show _ = (if qk = k' then some qv else dlookup rest k')
        rw [if_pos hq']
      · rw [if_neg hq', ih]
        show _ = (if qk = k' then some qv else dlookup rest k')
        rw [if_neg hq']

theorem dset_id_of {κ α : Type} [DecidableEq κ] {l : List (κ × α)} {k : κ} {f : α → α}
    (h : ∀ v, dlookup l k = some v → f v = v) : dset l k f = l := by
  induction l with
  | nil => simp [dset]
  | cons q rest ih =>
    obtain ⟨qk, qv⟩ := q
    show (if qk = k then (qk, f qv) :: rest else (qk, qv) :: dset rest k f) = _
    by_cases hq : qk = k
    · have hv : f qv = qv := h qv (by show (if qk = k then some qv else _) = some qv; rw [if_pos hq])
      rw [if_pos hq, hv]
    · have hrest : ∀ v, dlookup rest k = some v → f v = v := by
        intro v hv
        refine h v ?_
        show (if qk = k then some qv else dlookup rest k) = some v
        rw [if_neg hq]; exact hv
      rw [if_neg hq, ih hrest]

theorem dset_of_lookup_none {κ α : Type} [DecidableEq κ] {l : List (κ × α)} {k : κ}
    {f : α → α} (h : dlookup l k = none) : dset l k f = l := by
  induction l with
  | nil => simp [dset]
  | cons q rest ih =>
    unfold dlookup at h
    unfold dset
    by_cases hq : q.1 = k
    · simp [hq] at h
    · simp [hq] at h ⊢
      exact ih h

/-! ## C6: gap detection -/

theorem allFundsHave_iff {funds : List (String × FundData)} {dt : Date} :
    allFundsHave funds dt = true ↔
      ∀ fp ∈ FUNDS, ∃ fd, dlookup funds fp.1 = some fd ∧ ∃ e ∈ fd.history, e.date = dt := by
  unfold allFundsHave
  rw [List.all_eq_true]
  constructor
  · intro h fp hfp
    have h2 := h fp hfp
    cases hc : dlookup funds fp.1 with
    | none => rw [hc] at h2; exact absurd h2 (by simp)
    | some fd =>
      rw [hc] at h2
      simp only [List.any_eq_true, decide_eq_true_eq] at h2
      obtain ⟨e, he, hed⟩ := h2
      exact ⟨fd, rfl, e, he, hed⟩
  · intro h fp hfp
    obtain ⟨fd, hfd, e, he, hed⟩ := h fp hfp
    rw [hfd]
    simp only [List.any_eq_true, decide_eq_true_eq]
    exact ⟨e, he, hed⟩

/-- C6: `get_missing_dates` returns exactly the window dates that are not
covered by every tracked fund and not recorded unavailable, preserving the
window's order (the result is a sublist of the window). -/
theorem get_missing_dates_spec (data : StoreData) (window : List Date) :
    (∀ dt, dt ∈ get_missing_dates data window ↔
        dt ∈ window ∧ ¬ presentForAll data dt ∧ dt ∉ data.unavailable_dates) ∧
    (get_missing_dates data window).Sublist window := by
  constructor
  · intro dt
    unfold get_missing_dates
    rw [List.mem_filter]
    have hiff : allFundsHave data.funds dt = true ↔ presentForAll data dt := allFundsHave_iff
    constructor
    · rintro ⟨hw, hb⟩
      simp only [Bool.and_eq_true, Bool.not_eq_true', decide_eq_false_iff_not] at hb
      exact ⟨hw, fun hp => by simp [hiff.mpr hp] at hb, hb.2⟩
    · rintro ⟨hw, hp, hu⟩
      refine ⟨hw, ?_⟩
      simp only [Bool.and_eq_true, Bool.not_eq_true', decide_eq_false_iff_not]
      refine ⟨?_, hu⟩
      cases hc : allFundsHave data.funds dt with
      | false => rfl
      | true => exact absurd (hiff.mp hc) hp
  · exact List.filter_sublist _

/-! ## C10: the merge never stores a null nav -/

theorem navsPresent_append_empty {funds : List (String × FundData)} {c n : String}
    (h : NavsPresent funds) :
    NavsPresent (funds ++ [(c, { name := n, history := [] })]) := by
  intro p hp e he
  rcases List.mem_append.mp hp with h2 | h2
  · exact h p h2 e he
  · rcases List.mem_singleton.mp h2 with rfl
    simp at he

theorem initFund_navs {funds : List (String × FundData)} {r : FundResult}
    (h : NavsPresent funds) : NavsPresent (initFund funds r) := by
  unfold initFund
  split
  · exact h
  · exact navsPresent_append_empty h

theorem appendResult_navs {funds : List (String × FundData)} {r : FundResult}
    (h : NavsPresent funds) : NavsPresent (appendResult funds r) := by
  unfold appendResult
  have h' : NavsPresent (initFund funds r) := initFund_navs h
  cases hnav : r.nav with
  | none => simpa only [hnav] using h'
  | some v =>
    simp only [hnav]
    intro p hp e he
    rcases mem_dset hp with h2 | h2
    · exact h' p h2 e he
    · obtain ⟨q, hq, rfl⟩ := h2
      dsimp only at he
      split at he
      · exact h' q hq e he
      · dsimp only at he
        rcases List.mem_append.mp he with h3 | h3
        · exact h' q hq e h3
        · rcases List.mem_singleton.mp h3 with rfl
          simp

theorem foldl_appendResult_navs {rs : List FundResult} {funds : List (String × FundData)}
    (h : NavsPresent funds) : NavsPresent (rs.foldl appendResult funds) := by
  induction rs generalizing funds with
  | nil => exact h
  | cons r rest ih => exact ih (appendResult_navs h)

theorem sortHistory_perm (h : List HistoryEntry) : List.Perm (sortHistory h) h :=
  List.perm_insertionSort entryLe h

theorem processDate_navs {funds : List (String × FundData)} {b : Date × List FundResult}
    (h : NavsPresent funds) : NavsPresent (processDate funds b) := by
  unfold processDate
  intro p hp e he
  rcases List.mem_map.mp hp with ⟨q, hq, rfl⟩
  dsimp only at he
  have he' : e ∈ q.2.history := (sortHistory_perm q.2.history).mem_iff.mp he
  exact foldl_appendResult_navs h q hq e he'

theorem foldl_processDate_navs {res : List (Date × List FundResult)}
    {funds : List (String × FundData)} (h : NavsPresent funds) :
    NavsPresent (res.foldl processDate funds) := by
  induction res generalizing funds with
  | nil => exact h
  | cons b rest ih => exact ih (processDate_navs h)

/-- C10: `update_json_data` appends an observation only under the
`r['nav'] is not None` guard, so if every entry of the loaded store has a
non-null nav, so does every entry of the persisted store — for every input
batch, including the extractor's observations with `nav = None` for funds
missing from the page. -/
theorem merge_never_stores_null_nav (data : StoreData)
    (all_results : List (Date × List FundResult)) (skipped_dates : List Date)
    (now : String) (h : NavsPresent data.funds) :
    NavsPresent (update_json_data data all_results skipped_dates now).funds := by
  unfold update_json_data
  dsimp only
  exact foldl_processDate_navs h

/-- Witness for C10 at a concrete batch in which one fund's nav is present
and every other fund's nav is None (a page listing only RBF5736). -/
theorem merge_never_stores_null_nav_witness :
    NavsPresent initial_data.funds ∧
    NavsPresent (update_json_data initial_data
      [(⟨2024, 1, 5⟩, extract_funds_from_list_page
          { asOf := some ⟨2024, 1, 5⟩
            nav := fun c => if c = "RBF5736" then some 10 else none
            change_percent := fun _ => none } ⟨2024, 1, 5⟩)] [] "t").funds :=
  ⟨by decide, merge_never_stores_null_nav _ _ _ _ (by decide)⟩

/-! ## Scrape-loop lemmas -/

theorem mem_addSkipped_self (sk : List Date) (d : Date) : d ∈ addSkipped sk d := by
  unfold addSkipped
  split
  · assumption
  · exact List.mem_append_right _ (List.mem_singleton.mpr rfl)

theorem mem_addSkipped_of_mem {sk : List Date} {x : Date} (d : Date) (h : x ∈ sk) :
    x ∈ addSkipped sk d := by
  unfold addSkipped
  split
  · exact h
  · exact List.mem_append_left _ h

theorem dlookup_isSome_iff_mem {κ α : Type} [DecidableEq κ] {l : List (κ × α)} {k : κ} :
    (dlookup l k).isSome = true ↔ k ∈ l.map (·.1) := by
  cases hc : dlookup l k with
  | none => simpa using dlookup_eq_none.mp hc
  | some v =>
    simp only [Option.isSome_some, true_iff]
    by_contra hmem
    rw [← dlookup_eq_none] at hmem
    rw [hc] at hmem
    exact absurd hmem (by simp)

theorem scrapeStep_of_fetch_fail {fetch : Date → Option Page} {r : Date}
    (st : ScrapeState) (hf : fetch r = none) : scrapeStep fetch st r = st := by
  unfold scrapeStep
  rw [hf]
  simp only [scrapeStepFetched]

theorem scrapeStep_of_no_asof {fetch : Date → Option Page} {r : Date} {page : Page}
    (st : ScrapeState) (hf : fetch r = some page) (ha : page.asOf = none) :
    scrapeStep fetch st r = (st.1, addSkipped st.2 r) := by
  unfold scrapeStep
  rw [hf]
  simp only [scrapeStepFetched]
  rw [ha]
  simp only [scrapeStepParsed]

theorem scrapeStep_of_out_of_range {fetch : Date → Option Page} {r a : Date} {page : Page}
    (st : ScrapeState) (hf : fetch r = some page) (ha : page.asOf = some a)
    (hd : 5 < dateDiffAbs a r) : scrapeStep fetch st r = (st.1, addSkipped st.2 r) := by
  unfold scrapeStep
  rw [hf]
  simp only [scrapeStepFetched]
  rw [ha]
  simp only [scrapeStepParsed]
  rw [if_pos hd]

theorem scrapeStepParsed_skipped_mono (st : ScrapeState) (r : Date) (page : Page)
    (oa : Option Date) {x : Date} (h : x ∈ st.2) : x ∈ (scrapeStepParsed st r page oa).2 := by
  cases oa with
  | none => exact mem_addSkipped_of_mem _ h
  | some a =>
    simp only [scrapeStepParsed]
    by_cases hd : 5 < dateDiffAbs a r
    · rw [if_pos hd]; exact mem_addSkipped_of_mem _ h
    · rw [if_neg hd]
      have hsk : x ∈ (if a ≠ r then addSkipped st.2 r else st.2) := by
        split
        · exact mem_addSkipped_of_mem _ h
        · exact h
      split
      · exact hsk
      · exact hsk

theorem scrapeStep_skipped_mono (fetch : Date → Option Page) (st : ScrapeState) (r : Date)
    {x : Date} (h : x ∈ st.2) : x ∈ (scrapeStep fetch st r).2 := by
  unfold scrapeStep
  cases hf : fetch r with
  | none => exact h
  | some page => exact scrapeStepParsed_skipped_mono st r page page.asOf h

theorem scrapeStepParsed_results_mono (st : ScrapeState) (r : Date) (page : Page)
    (oa : Option Date) {b : Date × List FundResult} (h : b ∈ st.1) :
    b ∈ (scrapeStepParsed st r page oa).1 := by
  cases oa with
  | none => exact h
  | some a =>
    simp only [scrapeStepParsed]
    by_cases hd : 5 < dateDiffAbs a r
    · rw [if_pos hd]; exact h
    · rw [if_neg hd]
      split
      · exact h
      · exact List.mem_append_left _ h

theorem scrapeStep_results_mono (fetch : Date → Option Page) (st : ScrapeState) (r : Date)
    {b : Date × List FundResult} (h : b ∈ st.1) : b ∈ (scrapeStep fetch st r).1 := by
  unfold scrapeStep
  cases hf : fetch r with
  | none => exact h
  | some page => exact scrapeStepParsed_results_mono st r page page.asOf h

theorem foldl_scrapeStep_skipped_mono (fetch : Date → Option Page) (l : List Date)
    (st : ScrapeState) {x : Date} (h : x ∈ st.2) :
    x ∈ (l.foldl (scrapeStep fetch) st).2 := by
  induction l generalizing st with
  | nil => exact h
  | cons r rest ih => exact ih _ (scrapeStep_skipped_mono fetch st r h)

theorem foldl_scrapeStep_results_mono (fetch : Date → Option Page) (l : List Date)
    (st : ScrapeState) {b : Date × List FundResult} (h : b ∈ st.1) :
    b ∈ (l.foldl (scrapeStep fetch) st).1 := by
  induction l generalizing st with
  | nil => exact h
  | cons r rest ih => exact ih _ (scrapeStep_results_mono fetch st r h)

/-- If processing `r` always puts `r` into skipped_dates, then any run whose
request list contains `r` ends with `r` skipped. -/
theorem mem_scrape_skipped (fetch : Date → Option Page) (dates : List Date) (r : Date)
    (hr : r ∈ dates) (hstep : ∀ st : ScrapeState, r ∈ (scrapeStep fetch st r).2) :
    r ∈ (scrape_multiple_dates fetch dates).2 := by
  obtain ⟨s, t, rfl⟩ := List.append_of_mem hr
  unfold scrape_multiple_dates
  rw [List.foldl_append, List.foldl_cons]
  exact foldl_scrapeStep_skipped_mono _ _ _ (hstep _)

/-- Membership in the dedup-union written into `unavailable_dates`. -/
theorem mem_dedupDates_iff {l : List Date} {x : Date} : x ∈ dedupDates l ↔ x ∈ l := by
  have key : ∀ (l acc : List Date),
      (x ∈ l.foldl (fun acc d => if d ∈ acc then acc else acc ++ [d]) acc ↔
        x ∈ acc ∨ x ∈ l) := by
    intro l
    induction l with
    | nil => intro acc; simp
    | cons d rest ih =>
      intro acc
      rw [List.foldl_cons, ih]
      by_cases hd : d ∈ acc
      · rw [if_pos hd]
        constructor
        · rintro (h | h)
          · exact Or.inl h
          · exact Or.inr (List.mem_cons_of_mem _ h)
        · rintro (h | h)
          · exact Or.inl h
          · rcases List.mem_cons.mp h with rfl | h2
            · exact Or.inl hd
            · exact Or.inr h2
      · rw [if_neg hd]
        constructor
        · rintro (h | h)
          · rcases List.mem_append.mp h with h2 | h2
            · exact Or.inl h2
            · exact Or.inr (List.mem_cons.mpr (Or.inl (List.mem_singleton.mp h2)))
          · exact Or.inr (List.mem_cons_of_mem _ h)
        · rintro (h | h)
          · exact Or.inl (List.mem_append_left _ h)
          · rcases List.mem_cons.mp h with rfl | h2
            · exact Or.inl (List.mem_append_right _ (List.mem_singleton.mpr rfl))
            · exact Or.inr h2
  unfold dedupDates
  rw [key l []]
  simp

theorem mem_sortDates_iff {l : List Date} {x : Date} : x ∈ sortDates l ↔ x ∈ l :=
  (List.perm_insertionSort dateLe l).mem_iff

/-- Every date the run put into skipped_dates ends up in the persisted
`unavailable_dates`. -/
theorem mem_update_unavailable {data : StoreData} {res : List (Date × List FundResult)}
    {sk : List Date} {now : String} {x : Date} (h : x ∈ sk) :
    x ∈ (update_json_data data res sk now).unavailable_dates := by
  unfold update_json_data
  dsimp only
  have hne : sk ≠ [] := by rintro rfl; simp at h
  rw [if_neg hne, mem_sortDates_iff, mem_dedupDates_iff]
  exact List.mem_append_right _ h

/-- `unavailable_dates` is append-only across a merge. -/
theorem update_unavailable_mono {data : StoreData} {res : List (Date × List FundResult)}
    {sk : List Date} {now : String} {x : Date} (h : x ∈ data.unavailable_dates) :
    x ∈ (update_json_data data res sk now).unavailable_dates := by
  unfold update_json_data
  dsimp only
  split
  · exact h
  · rw [mem_sortDates_iff, mem_dedupDates_iff]
    exact List.mem_append_left _ h

/-! ## C2: batches without a parseable as-of date -/

/-- C2 counterexample: in a run that fetches a single date whose page has no
parseable "as of" date, the requested date IS written to the store's
`unavailable_dates` (the claim states it must NOT be written, so that the
date is retried later). -/
theorem no_asof_written_unavailable_cex :
    (⟨2024, 1, 15⟩ : Date) ∈
      (update_json_data initial_data
        (scrape_multiple_dates (fun _ => some (constPage none none)) [⟨2024, 1, 15⟩]).1
        (scrape_multiple_dates (fun _ => some (constPage none none)) [⟨2024, 1, 15⟩]).2
        "t").unavailable_dates := by
  decide

/-- C2 amended: when `parse_as_of_date` yields no date, the batch contributes
no observations (the iteration leaves `all_results` unchanged), but the
requested date IS added to `skipped_dates` and therefore written to
`unavailable_dates`, so it is NOT retried on a later run. -/
theorem no_asof_skips_and_marks_unavailable (fetch : Date → Option Page)
    (dates : List Date) (data : StoreData) (now : String) (r : Date) (page : Page)
    (hr : r ∈ dates) (hf : fetch r = some page) (ha : page.asOf = none) :
    (∀ st : ScrapeState, (scrapeStep fetch st r).1 = st.1) ∧
    r ∈ (scrape_multiple_dates fetch dates).2 ∧
    r ∈ (update_json_data data (scrape_multiple_dates fetch dates).1
          (scrape_multiple_dates fetch dates).2 now).unavailable_dates := by
  have hstep : ∀ st : ScrapeState, r ∈ (scrapeStep fetch st r).2 := fun st => by
    rw [scrapeStep_of_no_asof st hf ha]
    exact mem_addSkipped_self _ _
  refine ⟨fun st => by rw [scrapeStep_of_no_asof st hf ha], ?_, ?_⟩
  · exact mem_scrape_skipped fetch dates r hr hstep
  · exact mem_update_unavailable (mem_scrape_skipped fetch dates r hr hstep)

/-- Witness for the amended C2 at a concrete one-date run. -/
theorem no_asof_skips_and_marks_unavailable_witness :
    (⟨2024, 1, 15⟩ : Date) ∈ [(⟨2024, 1, 15⟩ : Date)] ∧
    (⟨2024, 1, 15⟩ : Date) ∈
      (update_json_data initial_data
        (scrape_multiple_dates (fun _ => some (constPage none none)) [⟨2024, 1, 15⟩]).1
        (scrape_multiple_dates (fun _ => some (constPage none none)) [⟨2024, 1, 15⟩]).2
        "t").unavailable_dates :=
  ⟨List.mem_singleton.mpr rfl,
    (no_asof_skips_and_marks_unavailable (fun _ => some (constPage none none))
      [⟨2024, 1, 15⟩] initial_data "t" ⟨2024, 1, 15⟩ (constPage none none)
      (List.mem_singleton.mpr rfl) rfl rfl).2.2⟩

/-! ## C7: out-of-range as-of dates -/

/-- C7: when the reported as_of date differs from the requested date by more
than 5 days, the iteration discards the entire fetch — `all_results` is
unchanged, so no observation of this fetch is ever merged into any
instrument's history — and the requested date is added to `skipped_dates`
and persisted in `unavailable_dates`. -/
theorem out_of_range_discards_and_marks_unavailable (fetch : Date → Option Page)
    (dates : List Date) (data : StoreData) (now : String) (r a : Date) (page : Page)
    (hr : r ∈ dates) (hf : fetch r = some page) (ha : page.asOf = some a)
    (hd : 5 < dateDiffAbs a r) :
    (∀ st : ScrapeState, scrapeStep fetch st r = (st.1, addSkipped st.2 r)) ∧
    r ∈ (scrape_multiple_dates fetch dates).2 ∧
    r ∈ (update_json_data data (scrape_multiple_dates fetch dates).1
          (scrape_multiple_dates fetch dates).2 now).unavailable_dates := by
  have hstep : ∀ st : ScrapeState, r ∈ (scrapeStep fetch st r).2 := fun st => by
    rw [scrapeStep_of_out_of_range st hf ha hd]
    exact mem_addSkipped_self _ _
  refine ⟨fun st => scrapeStep_of_out_of_range st hf ha hd, ?_, ?_⟩
  · exact mem_scrape_skipped fetch dates r hr hstep
  · exact mem_update_unavailable (mem_scrape_skipped fetch dates r hr hstep)

/-- Witness for C7: the source reports an as_of date 10 days before the
requested date. -/
theorem out_of_range_discards_and_marks_unavailable_witness :
    5 < dateDiffAbs ⟨2024, 1, 5⟩ ⟨2024, 1, 15⟩ ∧
    (⟨2024, 1, 15⟩ : Date) ∈
      (update_json_data initial_data
        (scrape_multiple_dates (fun _ => some (constPage (some ⟨2024, 1, 5⟩) (some 10)))
          [⟨2024, 1, 15⟩]).1
        (scrape_multiple_dates (fun _ => some (constPage (some ⟨2024, 1, 5⟩) (some 10)))
          [⟨2024, 1, 15⟩]).2 "t").unavailable_dates :=
  ⟨by decide,
    (out_of_range_discards_and_marks_unavailable
      (fun _ => some (constPage (some ⟨2024, 1, 5⟩) (some 10))) [⟨2024, 1, 15⟩]
      initial_data "t" ⟨2024, 1, 15⟩ ⟨2024, 1, 5⟩ (constPage (some ⟨2024, 1, 5⟩) (some 10))
      (List.mem_singleton.mpr rfl) rfl rfl (by decide)).2.2⟩

/-! ## FundsLe: monotone evolution of the funds dict under the merge -/

theorem fundsLe_refl (f : List (String × FundData)) : FundsLe f f :=
  fun _ fd h => ⟨fd, h, fun _ h2 => h2⟩

theorem fundsLe_trans {f1 f2 f3 : List (String × FundData)}
    (h12 : FundsLe f1 f2) (h23 : FundsLe f2 f3) : FundsLe f1 f3 := by
  intro c fd h
  obtain ⟨fd2, h2, hs⟩ := h12 c fd h
  obtain ⟨fd3, h3, hs2⟩ := h23 c fd2 h2
  exact ⟨fd3, h3, fun dt hdt => hs2 dt (hs dt hdt)⟩

theorem initFund_fundsLe (funds : List (String × FundData)) (r : FundResult) :
    FundsLe funds (initFund funds r) := by
  intro c fd h
  unfold initFund
  split
  · exact ⟨fd, h, fun _ h2 => h2⟩
  · refine ⟨fd, ?_, fun _ h2 => h2⟩
    rw [dlookup_append, h]

theorem appendResult_fundsLe (funds : List (String × FundData)) (r : FundResult) :
    FundsLe funds (appendResult funds r) := by
  refine fundsLe_trans (initFund_fundsLe funds r) ?_
  unfold appendResult
  cases hnav : r.nav with
  | none => simp only [hnav]; exact fundsLe_refl _
  | some v =>
    simp only [hnav]
    intro c fd h
    by_cases hc : c = r.fund_code
    · subst hc
      rw [dlookup_dset_self, h]
      refine ⟨_, rfl, ?_⟩
      intro dt hdt
      dsimp only
      split
      · exact hdt
      · dsimp only
        rw [List.map_append]
        exact List.mem_append_left _ hdt
    · rw [dlookup_dset_other _ _ _ _ hc]
      exact ⟨fd, h, fun _ h2 => h2⟩

theorem foldl_appendResult_fundsLe (rs : List FundResult) (funds : List (String × FundData)) :
    FundsLe funds (rs.foldl appendResult funds) := by
  induction rs generalizing funds with
  | nil => exact fundsLe_refl _
  | cons r rest ih => exact fundsLe_trans (appendResult_fundsLe funds r) (ih _)

theorem dlookup_sortStage (l : List (String × FundData)) (k : String) :
    dlookup (l.map fun p => (p.1, { p.2 with history := sortHistory p.2.history })) k =
      (dlookup l k).map fun fd => { fd with history := sortHistory fd.history } := by
  induction l with
  | nil => rfl
  | cons q rest ih =>
    obtain ⟨qk, qv⟩ := q
    simp only [List.map_cons]
    unfold dlookup
    by_cases hq : qk = k
    · simp [hq]
    · simp [hq, ih]

theorem sortStage_fundsLe (l : List (String × FundData)) :
    FundsLe l (l.map fun p => (p.1, { p.2 with history := sortHistory p.2.history })) := by
  intro c fd h
  rw [dlookup_sortStage, h]
  refine ⟨_, rfl, ?_⟩
  intro dt hdt
  dsimp only
  rw [List.mem_map] at hdt ⊢
  obtain ⟨e, he, rfl⟩ := hdt
  exact ⟨e, (sortHistory_perm fd.history).mem_iff.mpr he, rfl⟩

theorem processDate_fundsLe (funds : List (String × FundData)) (b : Date × List FundResult) :
    FundsLe funds (processDate funds b) := by
  refine fundsLe_trans (foldl_appendResult_fundsLe b.2 funds) ?_
  unfold processDate
  exact sortStage_fundsLe _

theorem foldl_processDate_fundsLe (res : List (Date × List FundResult))
    (funds : List (String × FundData)) : FundsLe funds (res.foldl processDate funds) := by
  induction res generalizing funds with
  | nil => exact fundsLe_refl _
  | cons b rest ih => exact fundsLe_trans (processDate_fundsLe funds b) (ih _)

theorem update_fundsLe (data : StoreData) (res : List (Date × List FundResult))
    (sk : List Date) (now : String) :
    FundsLe data.funds (update_json_data data res sk now).funds := by
  unfold update_json_data
  dsimp only
  exact foldl_processDate_fundsLe res data.funds

/-! ## The merge stores every processed observation -/

theorem resultStored_mono {f1 f2 : List (String × FundData)} {r : FundResult}
    (hle : FundsLe f1 f2) (h : ResultStored f1 r) : ResultStored f2 r := by
  obtain ⟨fd, hfd, hdt⟩ := h
  obtain ⟨fd2, hfd2, hsub⟩ := hle _ _ hfd
  exact ⟨fd2, hfd2, fun v hv => hsub _ (hdt v hv)⟩

theorem initFund_lookup_self (funds : List (String × FundData)) (r : FundResult) :
    ∃ fd, dlookup (initFund funds r) r.fund_code = some fd := by
  unfold initFund
  cases hc : dlookup funds r.fund_code with
  | some fd => exact ⟨fd, by simp [hc]⟩
  | none =>
    refine ⟨{ name := r.fund_name, history := [] }, ?_⟩
    simp only [Option.isSome_none, Bool.false_eq_true, if_false]
    rw [dlookup_append, hc]
    unfold dlookup
    simp

theorem appendResult_stores_self (funds : List (String × FundData)) (r : FundResult) :
    ResultStored (appendResult funds r) r := by
  unfold appendResult
  obtain ⟨fd0, hfd0⟩ := initFund_lookup_self funds r
  cases hnav : r.nav with
  | none =>
    simp only [hnav]
    exact ⟨fd0, hfd0, fun v hv => by rw [hnav] at hv; exact absurd hv (by simp)⟩
  | some v =>
    simp only [hnav]
    refine ⟨_, by rw [dlookup_dset_self, hfd0]; rfl, ?_⟩
    intro v' hv'
    dsimp only
    split
    · next hmem => exact hmem
    · dsimp only
      rw [List.map_append]
      exact List.mem_append_right _ (by simp)

theorem foldl_appendResult_stores {rs : List FundResult} {funds : List (String × FundData)}
    {r : FundResult} (hr : r ∈ rs) : ResultStored (rs.foldl appendResult funds) r := by
  obtain ⟨s, t, rfl⟩ := List.append_of_mem hr
  rw [List.foldl_append, List.foldl_cons]
  exact resultStored_mono (foldl_appendResult_fundsLe t _)
    (appendResult_stores_self (s.foldl appendResult funds) r)

theorem processDate_stores {funds : List (String × FundData)} {b : Date × List FundResult}
    {r : FundResult} (hr : r ∈ b.2) : ResultStored (processDate funds b) r := by
  unfold processDate
  exact resultStored_mono (sortStage_fundsLe _) (foldl_appendResult_stores hr)

theorem update_stores (data : StoreData) (res : List (Date × List FundResult))
    (sk : List Date) (now : String) {b : Date × List FundResult} {r : FundResult}
    (hb : b ∈ res) (hr : r ∈ b.2) :
    ResultStored (update_json_data data res sk now).funds r := by
  unfold update_json_data
  dsimp only
  obtain ⟨s, t, rfl⟩ := List.append_of_mem hb
  rw [List.foldl_append, List.foldl_cons]
  exact resultStored_mono (foldl_processDate_fundsLe t _) (processDate_stores hr)


/-! ## Keys of the run's result dict -/

theorem scrapeStepParsed_keys_nodup {st : ScrapeState} (r : Date) (page : Page)
    (oa : Option Date) (h : (st.1.map (·.1)).Nodup) :
    ((scrapeStepParsed st r page oa).1.map (·.1)).Nodup := by
  cases oa with
  | none => exact h
  | some a =>
    simp only [scrapeStepParsed]
    by_cases hd : 5 < dateDiffAbs a r
    · rw [if_pos hd]; exact h
    · rw [if_neg hd]
      split
      · exact h
      · next hlook =>
        rw [List.map_append]
        rw [List.nodup_append]
        refine ⟨h, by simp, ?_⟩
        intro x hx hx2
        simp only [List.map_cons, List.map_nil, List.mem_singleton] at hx2
        subst hx2
        have : dlookup st.1 x = none := by
          cases hcl : dlookup st.1 x with
          | none => rfl
          | some v => rw [hcl] at hlook; exact absurd rfl hlook
        exact dlookup_eq_none.mp this hx

theorem scrape_keys_nodup (fetch : Date → Option Page) (dates : List Date) :
    ((scrape_multiple_dates fetch dates).1.map (·.1)).Nodup := by
  suffices h : ∀ (l : List Date) (st : ScrapeState), (st.1.map (·.1)).Nodup →
      ((l.foldl (scrapeStep fetch) st).1.map (·.1)).Nodup by
    exact h dates ([], []) (by simp)
  intro l
  induction l with
  | nil => exact fun _ h => h
  | cons r rest ih =>
    intro st h
    refine ih _ ?_
    unfold scrapeStep
    cases fetch r with
    | none => exact h
    | some page => exact scrapeStepParsed_keys_nodup r page page.asOf h

theorem scrapeStep_in_range_key {fetch : Date → Option Page} {r a : Date} {page : Page}
    (st : ScrapeState) (hf : fetch r = some page) (ha : page.asOf = some a)
    (hd : ¬ 5 < dateDiffAbs a r) : a ∈ (scrapeStep fetch st r).1.map (·.1) := by
  unfold scrapeStep
  rw [hf]
  simp only [scrapeStepFetched]
  rw [ha]
  simp only [scrapeStepParsed]
  rw [if_neg hd]
  split
  · next hlook => exact dlookup_isSome_iff_mem.mp hlook
  · rw [List.map_append]
    exact List.mem_append_right _ (by simp)

theorem scrapeStep_keys_mono (fetch : Date → Option Page) (st : ScrapeState) (r : Date)
    {a : Date} (h : a ∈ st.1.map (·.1)) : a ∈ (scrapeStep fetch st r).1.map (·.1) := by
  rw [List.mem_map] at h ⊢
  obtain ⟨b, hb, rfl⟩ := h
  exact ⟨b, scrapeStep_results_mono fetch st r hb, rfl⟩

theorem foldl_scrapeStep_keys_mono (fetch : Date → Option Page) (l : List Date)
    (st : ScrapeState) {a : Date} (h : a ∈ st.1.map (·.1)) :
    a ∈ (l.foldl (scrapeStep fetch) st).1.map (·.1) := by
  induction l generalizing st with
  | nil => exact h
  | cons r rest ih => exact ih _ (scrapeStep_keys_mono fetch st r h)

/-- A request whose fetch reports an in-range as_of date `a` guarantees that
`a` ends up among the run's result keys. -/
theorem mem_scrape_key (fetch : Date → Option Page) (dates : List Date) {r a : Date}
    {page : Page} (hr : r ∈ dates) (hf : fetch r = some page) (ha : page.asOf = some a)
    (hd : ¬ 5 < dateDiffAbs a r) :
    a ∈ (scrape_multiple_dates fetch dates).1.map (·.1) := by
  obtain ⟨s, t, rfl⟩ := List.append_of_mem hr
  unfold scrape_multiple_dates
  rw [List.foldl_append, List.foldl_cons]
  exact foldl_scrapeStep_keys_mono _ _ _ (scrapeStep_in_range_key _ hf ha hd)

theorem scrapeStep_subst_skipped {fetch : Date → Option Page} {r a : Date} {page : Page}
    (st : ScrapeState) (hf : fetch r = some page) (ha : page.asOf = some a)
    (hd : ¬ 5 < dateDiffAbs a r) (hne : a ≠ r) : r ∈ (scrapeStep fetch st r).2 := by
  unfold scrapeStep
  rw [hf]
  simp only [scrapeStepFetched]
  rw [ha]
  simp only [scrapeStepParsed]
  rw [if_neg hd, if_pos hne]
  split
  · exact mem_addSkipped_self _ _
  · exact mem_addSkipped_self _ _

/-! ## C8: date substitution -/

/-- C8: when the source substitutes a nearby date `a` for the requested date
`r` (within 5 days), `r` is marked skipped and lands in `unavailable_dates`,
while `a` appears exactly once among the run's result keys — even when other
requests also resolve to `a` — and the merge stores every navful observation
of every accepted batch (in particular `a`'s batch) under its own date key. -/
theorem substitution_merged_once (fetch : Date → Option Page) (dates : List Date)
    (data : StoreData) (now : String) (r a : Date) (page : Page)
    (hr : r ∈ dates) (hf : fetch r = some page) (ha : page.asOf = some a)
    (hd : ¬ 5 < dateDiffAbs a r) (hne : a ≠ r) :
    r ∈ (scrape_multiple_dates fetch dates).2 ∧
    r ∈ (update_json_data data (scrape_multiple_dates fetch dates).1
          (scrape_multiple_dates fetch dates).2 now).unavailable_dates ∧
    ((scrape_multiple_dates fetch dates).1.map (·.1)).count a = 1 ∧
    (∀ b ∈ (scrape_multiple_dates fetch dates).1, ∀ rr ∈ b.2,
      ResultStored (update_json_data data (scrape_multiple_dates fetch dates).1
        (scrape_multiple_dates fetch dates).2 now).funds rr) := by
  have hskip : r ∈ (scrape_multiple_dates fetch dates).2 :=
    mem_scrape_skipped fetch dates r hr
      (fun st => scrapeStep_subst_skipped st hf ha hd hne)
  refine ⟨hskip, mem_update_unavailable hskip, ?_, ?_⟩
  · exact List.count_eq_one_of_mem (scrape_keys_nodup fetch dates)
      (mem_scrape_key fetch dates hr hf ha hd)
  · intro b hb rr hrr
    exact update_stores data _ _ now hb hrr

/-- Witness for C8: Saturday 2024-01-06 and Sunday 2024-01-07 both resolve
to Friday 2024-01-05; Friday appears exactly once among the result keys. -/
theorem substitution_merged_once_witness :
    ((⟨2024, 1, 6⟩ : Date) ∈ ([⟨2024, 1, 6⟩, ⟨2024, 1, 7⟩] : List Date)) ∧
    ((scrape_multiple_dates (fun _ => some (constPage (some ⟨2024, 1, 5⟩) (some 10)))
        [⟨2024, 1, 6⟩, ⟨2024, 1, 7⟩]).1.map (·.1)).count ⟨2024, 1, 5⟩ = 1 :=
  ⟨by decide,
    (substitution_merged_once (fun _ => some (constPage (some ⟨2024, 1, 5⟩) (some 10)))
      [⟨2024, 1, 6⟩, ⟨2024, 1, 7⟩] initial_data "t" ⟨2024, 1, 6⟩ ⟨2024, 1, 5⟩
      (constPage (some ⟨2024, 1, 5⟩) (some 10)) (by decide) rfl rfl (by decide)
      (by decide)).2.2.1⟩

end FundTracker

namespace FundTracker

/-! ## C1: strict ordering of merged histories -/

theorem nd_of_histStrict {h : List HistoryEntry} (hs : HistStrict h) :
    (h.map (·.date)).Nodup := by
  have hne : h.Pairwise fun e1 e2 => e1.date ≠ e2.date :=
    hs.imp fun hab => (dateLt_iff.mp hab).2
  show (h.map (·.date)).Pairwise (· ≠ ·)
  rw [List.pairwise_map]
  exact hne

theorem histStrict_of_sorted_nd {h : List HistoryEntry}
    (hs : h.Pairwise entryLe) (hn : (h.map (·.date)).Nodup) : HistStrict h := by
  have hn' : (h.map (·.date)).Pairwise (· ≠ ·) := hn
  rw [List.pairwise_map] at hn'
  exact (hs.and hn').imp fun hab => dateLt_iff.mpr ⟨hab.1, hab.2⟩

theorem initFund_nd {funds : List (String × FundData)} {r : FundResult}
    (h : AllND funds) : AllND (initFund funds r) := by
  unfold initFund
  split
  · exact h
  · intro p hp
    rcases List.mem_append.mp hp with h2 | h2
    · exact h p h2
    · rcases List.mem_singleton.mp h2 with rfl
      simp

theorem appendResult_nd {funds : List (String × FundData)} {r : FundResult}
    (h : AllND funds) : AllND (appendResult funds r) := by
  unfold appendResult
  have h' : AllND (initFund funds r) := initFund_nd h
  cases hnav : r.nav with
  | none => simpa only [hnav] using h'
  | some v =>
    simp only [hnav]
    intro p hp
    rcases mem_dset hp with h2 | h2
    · exact h' p h2
    · obtain ⟨q, hq, rfl⟩ := h2
      dsimp only
      split
      · exact h' q hq
      · next hmem =>
        dsimp only
        rw [List.map_append, List.nodup_append]
        refine ⟨h' q hq, by simp, ?_⟩
        intro x hx hx2
        simp only [List.map_cons, List.map_nil, List.mem_singleton] at hx2
        subst hx2
        exact hmem hx

theorem foldl_appendResult_nd {rs : List FundResult} {funds : List (String × FundData)}
    (h : AllND funds) : AllND (rs.foldl appendResult funds) := by
  induction rs generalizing funds with
  | nil => exact h
  | cons r rest ih => exact ih (appendResult_nd h)

theorem processDate_nd {funds : List (String × FundData)} {b : Date × List FundResult}
    (h : AllND funds) : AllND (processDate funds b) := by
  unfold processDate
  intro p hp
  rcases List.mem_map.mp hp with ⟨q, hq, rfl⟩
  dsimp only
  have hperm : List.Perm ((sortHistory q.2.history).map (·.date))
      (q.2.history.map (·.date)) := (sortHistory_perm q.2.history).map _
  exact hperm.nodup_iff.mpr (foldl_appendResult_nd h q hq)

theorem foldl_processDate_nd {res : List (Date × List FundResult)}
    {funds : List (String × FundData)} (h : AllND funds) :
    AllND (res.foldl processDate funds) := by
  induction res generalizing funds with
  | nil => exact h
  | cons b rest ih => exact ih (processDate_nd h)

theorem processDate_sorted (funds : List (String × FundData)) (b : Date × List FundResult) :
    ∀ p ∈ processDate funds b, p.2.history.Pairwise entryLe := by
  unfold processDate
  intro p hp
  rcases List.mem_map.mp hp with ⟨q, hq, rfl⟩
  dsimp only
  exact List.sorted_insertionSort entryLe _

theorem update_preserves_strict (data : StoreData) (res : List (Date × List FundResult))
    (sk : List Date) (now : String)
    (h : ∀ p ∈ data.funds, HistStrict p.2.history) :
    ∀ p ∈ (update_json_data data res sk now).funds, HistStrict p.2.history := by
  unfold update_json_data
  dsimp only
  have hnd : AllND data.funds := fun p hp => nd_of_histStrict (h p hp)
  rcases eq_or_ne res [] with rfl | hne
  · simpa using h
  · obtain ⟨res0, last, rfl⟩ : ∃ res0 last, res = res0 ++ [last] :=
      ⟨res.dropLast, res.getLast hne, (List.dropLast_append_getLast hne).symm⟩
    rw [List.foldl_append]
    simp only [List.foldl_cons, List.foldl_nil]
    intro p hp
    exact histStrict_of_sorted_nd (processDate_sorted _ _ p hp)
      (processDate_nd (foldl_processDate_nd hnd) p hp)

theorem idx_nd_of_strict {h : List IndexEntry} (hs : IdxStrict h) :
    (h.map (·.date)).Nodup := by
  have hne : h.Pairwise fun e1 e2 => e1.date ≠ e2.date :=
    hs.imp fun hab => (dateLt_iff.mp hab).2
  show (h.map (·.date)).Pairwise (· ≠ ·)
  rw [List.pairwise_map]
  exact hne

theorem idxStrict_of_sorted_nd {h : List IndexEntry}
    (hs : h.Pairwise idxLe) (hn : (h.map (·.date)).Nodup) : IdxStrict h := by
  have hn' : (h.map (·.date)).Pairwise (· ≠ ·) := hn
  rw [List.pairwise_map] at hn'
  exact (hs.and hn').imp fun hab => dateLt_iff.mpr ⟨hab.1, hab.2⟩

/-- The append loop of the market update keeps per-ticker dates unique:
the already-stored dates are excluded via the precomputed `existing` set
and the fetched series has pairwise-distinct dates. -/
theorem market_fold_nd (existing : List Date) :
    ∀ (fetched : List (Date × ℚ)) (h : List IndexEntry),
      (h.map (·.date)).Nodup → (fetched.map (·.1)).Nodup →
      (∀ q ∈ fetched, q.1 ∉ existing → q.1 ∉ h.map (·.date)) →
      (((fetched.foldl (fun h p => if p.1 ∈ existing then h
          else h ++ [{ date := p.1, close := round2 p.2 }]) h)).map (·.date)).Nodup := by
  intro fetched
  induction fetched with
  | nil => intro h hn _ _; exact hn
  | cons q rest ih =>
    intro h hn hf hsub
    rw [List.foldl_cons]
    have hf' : (rest.map (·.1)).Nodup := by
      simp only [List.map_cons] at hf
      exact hf.of_cons
    by_cases hq : q.1 ∈ existing
    · rw [if_pos hq]
      exact ih h hn hf' fun q' hq' hq'e => hsub q' (List.mem_cons_of_mem _ hq') hq'e
    · rw [if_neg hq]
      have hqh : q.1 ∉ h.map (·.date) := hsub q (List.mem_cons_self ..) hq
      refine ih _ ?_ hf' ?_
      · rw [List.map_append, List.nodup_append]
        refine ⟨hn, by simp, ?_⟩
        intro x hx hx2
        simp only [List.map_cons, List.map_nil, List.mem_singleton] at hx2
        subst hx2
        exact hqh hx
      · intro q' hq' hq'e
        rw [List.map_append]
        intro hmem
        rcases List.mem_append.mp hmem with h2 | h2
        · exact hsub q' (List.mem_cons_of_mem _ hq') hq'e h2
        · simp only [List.map_cons, List.map_nil, List.mem_singleton] at h2
          have hq1 : q.1 ∉ rest.map (·.1) := by
            simp only [List.map_cons] at hf
            exact (List.nodup_cons.mp hf).1
          exact hq1 (h2 ▸ List.mem_map.mpr ⟨q', hq', rfl⟩)

/-- The final sort-and-cap stage of the market update. -/
theorem updateTicker_strict (hist : List IndexEntry) (fetched : List (Date × ℚ))
    (h1 : IdxStrict hist) (h2 : (fetched.map (·.1)).Nodup) :
    IdxStrict (updateTickerHistory hist fetched) := by
  unfold updateTickerHistory
  have hnd := market_fold_nd (hist.map (·.date)) fetched hist
    (idx_nd_of_strict h1) h2 (fun _ _ hq => hq)
  set h1' := fetched.foldl (fun h p => if p.1 ∈ hist.map (·.date) then h
    else h ++ [{ date := p.1, close := round2 p.2 }]) hist with hh1
  have hsorted : (sortIndexHistory h1').Pairwise idxLe :=
    List.sorted_insertionSort idxLe h1'
  have hnd2 : ((sortIndexHistory h1').map (·.date)).Nodup :=
    (((List.perm_insertionSort idxLe h1')).map _).nodup_iff.mpr hnd
  have hstrict : IdxStrict (sortIndexHistory h1') := idxStrict_of_sorted_nd hsorted hnd2
  dsimp only
  split
  · exact hstrict.sublist (List.drop_sublist _ _)
  · exact hstrict


/-- C1: after every merge operation each instrument's stored history is
strictly increasing by date (adjacent entries satisfy
`history[i].date < history[i+1].date`, hence no two entries share a date):
for `update_json_data` in scraper.py this holds for every store satisfying
the invariant and every batch; for the per-ticker loop in market_scraper.py
it holds for every strictly increasing stored history and every fetched
daily series with pairwise-distinct dates (a pandas daily-bar index). -/
theorem merge_strictly_increasing (data : StoreData)
    (res : List (Date × List FundResult)) (sk : List Date) (now : String)
    (hist : List IndexEntry) (fetched : List (Date × ℚ))
    (hfunds : ∀ p ∈ data.funds, HistStrict p.2.history)
    (hhist : IdxStrict hist) (hfetch : (fetched.map (·.1)).Nodup) :
    (∀ p ∈ (update_json_data data res sk now).funds, HistStrict p.2.history) ∧
    IdxStrict (updateTickerHistory hist fetched) :=
  ⟨update_preserves_strict data res sk now hfunds,
    updateTicker_strict hist fetched hhist hfetch⟩

/-- Witness for C1 at a concrete store, batch and ticker series. -/
theorem merge_strictly_increasing_witness :
    (∀ p ∈ initial_data.funds, HistStrict p.2.history) ∧
    (∀ p ∈ (update_json_data initial_data
        [(⟨2024, 1, 5⟩, extract_funds_from_list_page
            (constPage (some ⟨2024, 1, 5⟩) (some 10)) ⟨2024, 1, 5⟩)]
        [] "t").funds, HistStrict p.2.history) ∧
    IdxStrict (updateTickerHistory [⟨⟨2024, 1, 1⟩, 100⟩] [(⟨2024, 1, 2⟩, 100)]) := by
  refine ⟨by decide, ?_, ?_⟩
  · exact (merge_strictly_increasing initial_data
      [(⟨2024, 1, 5⟩, extract_funds_from_list_page
          (constPage (some ⟨2024, 1, 5⟩) (some 10)) ⟨2024, 1, 5⟩)]
      [] "t" [⟨⟨2024, 1, 1⟩, 100⟩] [(⟨2024, 1, 2⟩, 100)]
      (by decide) (by decide) (by decide)).1
  · exact (merge_strictly_increasing initial_data [] [] "t"
      [⟨⟨2024, 1, 1⟩, 100⟩] [(⟨2024, 1, 2⟩, 100)]
      (by decide) (by decide) (by decide)).2


/-! ## C3: "unchanged-price suppression" -/

/-- C3 counterexample: in latest-only polling (market_scraper.py), an
observation whose price equals the instrument's most recent stored price but
carries a new date IS appended — the dedup is keyed on dates only, prices
are never compared. -/
theorem unchanged_price_suppression_cex :
    updateTickerHistory [⟨⟨2024, 1, 1⟩, 100⟩] [(⟨2024, 1, 2⟩, 100)] =
      [⟨⟨2024, 1, 1⟩, 100⟩, ⟨⟨2024, 1, 2⟩, 100⟩] := by
  decide

/-- C3 amended: the no-op rule of latest-only polling is date-keyed, not
price-keyed: whenever every fetched date is already stored (in particular
when the identical (date, price) observations are fetched a second time),
the update appends nothing and the history is returned unchanged. -/
theorem dedup_is_date_keyed (hist : List IndexEntry) (fetched : List (Date × ℚ))
    (hs : hist.Pairwise idxLe) (hlen : hist.length ≤ 260)
    (hcov : ∀ q ∈ fetched, q.1 ∈ hist.map (·.date)) :
    updateTickerHistory hist fetched = hist := by
  unfold updateTickerHistory
  have hfold : ∀ (l : List (Date × ℚ)), (∀ q ∈ l, q.1 ∈ hist.map (·.date)) →
      l.foldl (fun h p => if p.1 ∈ hist.map (·.date) then h
        else h ++ [{ date := p.1, close := round2 p.2 }]) hist = hist := by
    intro l
    induction l with
    | nil => intro _; rfl
    | cons q rest ih =>
      intro hc
      rw [List.foldl_cons, if_pos (hc q (List.mem_cons_self ..))]
      exact ih fun q' hq' => hc q' (List.mem_cons_of_mem _ hq')
  dsimp only
  rw [hfold fetched hcov]
  have hsorteq : sortIndexHistory hist = hist := List.Sorted.insertionSort_eq hs
  rw [hsorteq]
  rw [if_neg (by omega)]

/-- Witness for the amended C3: refetching the identical (date, price)
observation leaves the history unchanged. -/
theorem dedup_is_date_keyed_witness :
    updateTickerHistory [⟨⟨2024, 1, 1⟩, 100⟩] [(⟨2024, 1, 1⟩, 100)] =
      [⟨⟨2024, 1, 1⟩, 100⟩] :=
  dedup_is_date_keyed [⟨⟨2024, 1, 1⟩, 100⟩] [(⟨2024, 1, 1⟩, 100)]
    (by decide) (by decide) (by decide)

/-! ## C4: exit status on total fetch failure -/

/-- C4 counterexample: a run in which every fetch raises (so zero dates
yield any data — total Quote Source unavailability) still exits with status
0: the per-date exceptions are caught inside `scrape_multiple_dates`' loop
and `main` returns normally with an empty result set. -/
theorem total_failure_exit_zero_cex :
    (scraper_main (fun _ => none) [⟨2024, 1, 8⟩] "t" initial_data).1 = 0 ∧
    (scrape_multiple_dates (fun _ => none)
      (get_missing_dates initial_data [⟨2024, 1, 8⟩])).1 = [] := by
  exact ⟨rfl, by decide⟩

/-- C4 amended: per-date fetch failures are caught and logged inside the
scrape loop, so `main` terminates normally — process exit status 0 — for
every fetch behaviour, window and (readable) store, including total fetch
failure; no failure state is surfaced to the caller. -/
theorem scraper_exit_always_zero (fetch : Date → Option Page) (window : List Date)
    (now : String) (data : StoreData) :
    (scraper_main fetch window now data).1 = 0 := rfl

/-! ## C5: save_data persistence is not write-temp-then-replace -/

/-- C5 counterexample: with old contents "old" on disk and payload "new",
the trace of `save_data` exposes an intermediate state in which the data
file is empty — neither the old nor the final contents — so a concurrent or
subsequent reader can observe a partially written file. -/
theorem save_data_not_atomic_cex :
    ¬ atomicFor "data.json" (fun _ => some "old") (save_data "data.json" "new") := by
  intro h
  have hmem : applyFsOp (fun _ => some "old") (FsOp.openTrunc "data.json") ∈
      fsStates (fun _ => some "old") (save_data "data.json" "new") := by
    simp [save_data, fsStates]
  have h2 := h _ hmem
  have hval : applyFsOp (fun _ => some "old") (FsOp.openTrunc "data.json") "data.json" =
      some "" := by simp [applyFsOp]
  rw [hval] at h2
  rcases h2 with h2 | h2
  · simp at h2
  · have hfin : runFsOps (fun _ => some "old") (save_data "data.json" "new") "data.json" =
        some "new" := by simp [save_data, runFsOps, applyFsOp]
    rw [hfin] at h2
    simp at h2

/-- C5 amended: `save_data` opens the target with truncation and streams the
payload into it in place — its trace contains no rename (no
write-temp-then-replace step), and whenever the payload is non-empty and the
previous contents are not the empty string, an intermediate state shows a
partially written (empty) target, so the commit is not atomic. -/
theorem save_data_truncates_in_place (path payload : String)
    (fs0 : String → Option String) (hpay : payload ≠ "") (hold : fs0 path ≠ some "") :
    (∀ src dst, FsOp.rename src dst ∉ save_data path payload) ∧
    ¬ atomicFor path fs0 (save_data path payload) := by
  constructor
  · intro src dst hmem
    simp [save_data] at hmem
  · intro h
    have hmem : applyFsOp fs0 (FsOp.openTrunc path) ∈
        fsStates fs0 (save_data path payload) := by
      simp [save_data, fsStates]
    have h2 := h _ hmem
    have hval : applyFsOp fs0 (FsOp.openTrunc path) path = some "" := by
      simp [applyFsOp]
    rw [hval] at h2
    rcases h2 with h2 | h2
    · exact hold h2.symm
    · have hfin : runFsOps fs0 (save_data path payload) path = some payload := by
        simp [save_data, runFsOps, applyFsOp]
      rw [hfin] at h2
      injection h2 with h3
      exact hpay h3.symm

/-- Witness for the amended C5 at concrete contents. -/
theorem save_data_truncates_in_place_witness :
    ("x" : String) ≠ "" ∧
    ¬ atomicFor "data.json" (fun _ => some "old") (save_data "data.json" "x") :=
  ⟨by decide,
    (save_data_truncates_in_place "data.json" "x" (fun _ => some "old")
      (by decide) (by simp)).2⟩

end FundTracker

namespace FundTracker

/-! ## C9 machinery: provenance of result bindings, monotone gap detection,
merge-as-identity on an already-synchronised store -/

theorem scrapeStep_results_cases {fetch : Date → Option Page} {st : ScrapeState}
    {r : Date} {b : Date × List FundResult} (hb : b ∈ (scrapeStep fetch st r).1) :
    b ∈ st.1 ∨ ∃ p, fetch r = some p ∧ p.asOf = some b.1 ∧
      ¬ 5 < dateDiffAbs b.1 r ∧ b.2 = extract_funds_from_list_page p b.1 := by
  unfold scrapeStep at hb
  cases hf : fetch r with
  | none => rw [hf] at hb; exact Or.inl hb
  | some page =>
    rw [hf] at hb
    simp only [scrapeStepFetched] at hb
    cases ha : page.asOf with
    | none => rw [ha] at hb; exact Or.inl hb
    | some a =>
      rw [ha] at hb
      simp only [scrapeStepParsed] at hb
      by_cases hd : 5 < dateDiffAbs a r
      · rw [if_pos hd] at hb; exact Or.inl hb
      · rw [if_neg hd] at hb
        split at hb
        · exact Or.inl hb
        · rcases List.mem_append.mp hb with h2 | h2
          · exact Or.inl h2
          · rcases List.mem_singleton.mp h2 with rfl
            exact Or.inr ⟨page, rfl, ha, hd, rfl⟩

theorem foldl_scrape_good (fetch : Date → Option Page) (dates : List Date) :
    ∀ (l : List Date) (st : ScrapeState), (∀ r ∈ l, r ∈ dates) →
      (∀ b ∈ st.1, GoodBinding fetch dates b) →
      ∀ b ∈ (l.foldl (scrapeStep fetch) st).1, GoodBinding fetch dates b := by
  intro l
  induction l with
  | nil => intro st _ hst; exact hst
  | cons r rest ih =>
    intro st hsub hst
    rw [List.foldl_cons]
    refine ih _ (fun r' h' => hsub r' (List.mem_cons_of_mem _ h')) ?_
    intro b hb
    rcases scrapeStep_results_cases hb with h2 | h2
    · exact hst b h2
    · obtain ⟨p, hf, ha, hd, hb2⟩ := h2
      exact ⟨r, hsub r (List.mem_cons_self ..), p, hf, ha, hd, hb2⟩

/-- Every binding of the run's result dict originates from some request whose
page reported that binding's date, in range. -/
theorem scrape_bindings_good (fetch : Date → Option Page) (dates : List Date) :
    ∀ b ∈ (scrape_multiple_dates fetch dates).1, GoodBinding fetch dates b :=
  foldl_scrape_good fetch dates dates ([], []) (fun _ h => h) (by simp)

theorem allFundsHave_mono {f1 f2 : List (String × FundData)} (hle : FundsLe f1 f2)
    {dt : Date} (h : allFundsHave f1 dt = true) : allFundsHave f2 dt = true := by
  rw [allFundsHave_iff] at h ⊢
  intro fp hfp
  obtain ⟨fd, hfd, e, he, hed⟩ := h fp hfp
  obtain ⟨fd2, hfd2, hsub⟩ := hle _ _ hfd
  have hdt : dt ∈ fd2.history.map (·.date) := hsub dt (List.mem_map.mpr ⟨e, he, hed⟩)
  obtain ⟨e2, he2, hed2⟩ := List.mem_map.mp hdt
  exact ⟨fd2, hfd2, e2, he2, hed2⟩

/-- A store that only gained coverage and unavailability has fewer missing
dates. -/
theorem get_missing_dates_mono (d0 d1 : StoreData) (window : List Date)
    (hle : FundsLe d0.funds d1.funds)
    (hun : ∀ x ∈ d0.unavailable_dates, x ∈ d1.unavailable_dates) :
    ∀ x ∈ get_missing_dates d1 window, x ∈ get_missing_dates d0 window := by
  intro x hx
  unfold get_missing_dates at hx ⊢
  rw [List.mem_filter] at hx ⊢
  obtain ⟨hw, hb⟩ := hx
  refine ⟨hw, ?_⟩
  simp only [Bool.and_eq_true, Bool.not_eq_true', decide_eq_false_iff_not] at hb ⊢
  refine ⟨?_, fun hmem => hb.2 (hun x hmem)⟩
  cases hc : allFundsHave d0.funds x with
  | false => rfl
  | true =>
    rw [allFundsHave_mono hle hc] at hb
    exact absurd hb.1 (by simp)

/-- After a merge of at least one accepted batch, every fund's history is
sorted (the last per-date pass re-sorts the whole dict). -/
theorem update_sorted (data : StoreData) (res : List (Date × List FundResult))
    (sk : List Date) (now : String) (hne : res ≠ []) :
    ∀ p ∈ (update_json_data data res sk now).funds, p.2.history.Pairwise entryLe := by
  unfold update_json_data
  dsimp only
  obtain ⟨res0, last, rfl⟩ : ∃ res0 last, res = res0 ++ [last] :=
    ⟨res.dropLast, res.getLast hne, (List.dropLast_append_getLast hne).symm⟩
  rw [List.foldl_append]
  simp only [List.foldl_cons, List.foldl_nil]
  exact processDate_sorted _ _

theorem appendResult_id {funds : List (String × FundData)} {rr : FundResult}
    (h : ResultStored funds rr) : appendResult funds rr = funds := by
  obtain ⟨fd, hfd, hdt⟩ := h
  unfold appendResult
  have hinit : initFund funds rr = funds := by
    unfold initFund
    rw [hfd]
    simp
  dsimp only
  rw [hinit]
  cases hnav : rr.nav with
  | none => simp only [hnav]
  | some v =>
    simp only [hnav]
    apply dset_id_of
    intro fd' hfd'
    rw [hfd] at hfd'
    injection hfd' with h2
    subst h2
    rw [if_pos (hdt v hnav)]

theorem foldl_appendResult_id {rs : List FundResult} {funds : List (String × FundData)}
    (h : ∀ rr ∈ rs, ResultStored funds rr) : rs.foldl appendResult funds = funds := by
  induction rs with
  | nil => rfl
  | cons rr rest ih =>
    rw [List.foldl_cons, appendResult_id (h rr (List.mem_cons_self ..))]
    exact ih fun rr' h' => h rr' (List.mem_cons_of_mem _ h')

theorem map_id_of {α : Type} {l : List α} {f : α → α} (h : ∀ a ∈ l, f a = a) :
    l.map f = l := by
  induction l with
  | nil => rfl
  | cons a rest ih =>
    rw [List.map_cons, h a (List.mem_cons_self ..),
      ih fun a' h' => h a' (List.mem_cons_of_mem _ h')]

theorem sortStage_id {funds : List (String × FundData)}
    (hs : ∀ p ∈ funds, p.2.history.Pairwise entryLe) :
    (funds.map fun p => (p.1, { p.2 with history := sortHistory p.2.history })) = funds := by
  apply map_id_of
  intro p hp
  have heq : sortHistory p.2.history = p.2.history :=
    List.Sorted.insertionSort_eq (hs p hp)
  rw [heq]

theorem processDate_id {funds : List (String × FundData)} {b : Date × List FundResult}
    (h1 : ∀ rr ∈ b.2, ResultStored funds rr)
    (h2 : ∀ p ∈ funds, p.2.history.Pairwise entryLe) : processDate funds b = funds := by
  unfold processDate
  rw [foldl_appendResult_id h1]
  exact sortStage_id h2

theorem foldl_processDate_id {res : List (Date × List FundResult)}
    {funds : List (String × FundData)}
    (h1 : ∀ b ∈ res, ∀ rr ∈ b.2, ResultStored funds rr)
    (h2 : ∀ p ∈ funds, p.2.history.Pairwise entryLe) :
    res.foldl processDate funds = funds := by
  induction res with
  | nil => rfl
  | cons b rest ih =>
    rw [List.foldl_cons, processDate_id (h1 b (List.mem_cons_self ..)) h2]
    exact ih fun b' hb' => h1 b' (List.mem_cons_of_mem _ hb')

theorem resultStored_congr {funds : List (String × FundData)} {r1 r2 : FundResult}
    (h : ResultStored funds r2) (hc : r1.fund_code = r2.fund_code)
    (hn : r1.nav = r2.nav) (hd : r1.date = r2.date) : ResultStored funds r1 := by
  obtain ⟨fd, hfd, hdt⟩ := h
  refine ⟨fd, hc ▸ hfd, ?_⟩
  intro v hv
  rw [hd]
  exact hdt v (hn ▸ hv)

end FundTracker

namespace FundTracker

/-! ## C9: idempotence of the sync -/

/-- C9: running the sync twice in immediate succession (same window) against
an unchanged, consistent Quote Source leaves the per-instrument histories
identical after the second run: the whole `funds` dict — entries, names and
order — is unchanged (only timestamps and bookkeeping fields may differ). -/
theorem sync_idempotent (fetch : Date → Option Page) (window : List Date)
    (now1 now2 : String) (data : StoreData) (hcons : ConsistentSource fetch) :
    (runScraper fetch window now2 (runScraper fetch window now1 data)).funds =
      (runScraper fetch window now1 data).funds := by
  unfold runScraper
  dsimp only
  by_cases h1 : get_missing_dates data window = []
  · rw [if_pos h1, if_pos h1]
  · rw [if_neg h1]
    set d1 := update_json_data data
      (scrape_multiple_dates fetch (get_missing_dates data window)).1
      (scrape_multiple_dates fetch (get_missing_dates data window)).2 now1 with hd1
    by_cases h2 : get_missing_dates d1 window = []
    · rw [if_pos h2]
    · rw [if_neg h2]
      have hle : FundsLe data.funds d1.funds := by
        rw [hd1]; exact update_fundsLe data _ _ now1
      have hun : ∀ x ∈ data.unavailable_dates, x ∈ d1.unavailable_dates := by
        intro x hx; rw [hd1]; exact update_unavailable_mono hx
      have hmono := get_missing_dates_mono data d1 window hle hun
      have hkey : ∀ b ∈ (scrape_multiple_dates fetch (get_missing_dates d1 window)).1,
          b.1 ∈ (scrape_multiple_dates fetch
            (get_missing_dates data window)).1.map (·.1) := by
        intro b hb
        obtain ⟨r, hrm2, p, hf, ha, hdd, hb2⟩ := scrape_bindings_good fetch _ b hb
        exact mem_scrape_key fetch _ (hmono r hrm2) hf ha hdd
      have hstored : ∀ b ∈ (scrape_multiple_dates fetch (get_missing_dates d1 window)).1,
          ∀ rr ∈ b.2, ResultStored d1.funds rr := by
        intro b hb rr hrr
        obtain ⟨r, hrm2, p2, hf2, ha2, hdd2, hb2⟩ := scrape_bindings_good fetch _ b hb
        have hamem := mem_scrape_key fetch _ (hmono r hrm2) hf2 ha2 hdd2
        obtain ⟨b1, hb1, hb1a⟩ := List.mem_map.mp hamem
        obtain ⟨r1, hr1, p1, hf1, ha1, hdd1, hb12⟩ := scrape_bindings_good fetch _ b1 hb1
        have hnav : p1.nav = p2.nav :=
          hcons r1 r p1 p2 b.1 hf1 hf2 (hb1a ▸ ha1) ha2
        rw [hb2] at hrr
        unfold extract_funds_from_list_page at hrr
        obtain ⟨fp, hfp, rfl⟩ := List.mem_map.mp hrr
        have hrr1 : ({ fund_code := fp.1
                       fund_name := fp.2
                       nav := p1.nav fp.1
                       change_percent := p1.change_percent fp.1
                       date := b1.1 } : FundResult) ∈ b1.2 := by
          rw [hb12]
          unfold extract_funds_from_list_page
          exact List.mem_map.mpr ⟨fp, hfp, rfl⟩
        have hst1 : ResultStored d1.funds { fund_code := fp.1
                                            fund_name := fp.2
                                            nav := p1.nav fp.1
                                            change_percent := p1.change_percent fp.1
                                            date := b1.1 } := by
          rw [hd1]
          exact update_stores data _ _ now1 hb1 hrr1
        refine resultStored_congr hst1 rfl ?_ ?_
        · exact (congrFun hnav fp.1).symm
        · exact hb1a.symm
      unfold update_json_data
      dsimp only
      by_cases hres2 : (scrape_multiple_dates fetch (get_missing_dates d1 window)).1 = []
      · rw [hres2]
        rfl
      · obtain ⟨b0, hb0⟩ := List.exists_mem_of_ne_nil _ hres2
        have hne1 : (scrape_multiple_dates fetch (get_missing_dates data window)).1 ≠ [] := by
          intro hnil
          have := hkey b0 hb0
          rw [hnil] at this
          simp at this
        have hsorted : ∀ p ∈ d1.funds, p.2.history.Pairwise entryLe := by
          rw [hd1]
          exact update_sorted data _ _ now1 hne1
        exact foldl_processDate_id hstored hsorted

/-- Witness for C9 at a concrete consistent source and two-day window. -/
theorem sync_idempotent_witness :
    ConsistentSource wFetch ∧
    (runScraper wFetch [⟨2024, 1, 8⟩, ⟨2024, 1, 5⟩] "t2"
        (runScraper wFetch [⟨2024, 1, 8⟩, ⟨2024, 1, 5⟩] "t1" initial_data)).funds =
      (runScraper wFetch [⟨2024, 1, 8⟩, ⟨2024, 1, 5⟩] "t1" initial_data).funds := by
  have hcons : ConsistentSource wFetch := by
    intro r1 r2 p1 p2 a h1 h2 _ _
    unfold wFetch at h1 h2
    by_cases hr1 : r1 = (⟨2024, 1, 8⟩ : Date)
    · by_cases hr2 : r2 = (⟨2024, 1, 8⟩ : Date)
      · rw [if_pos hr1] at h1
        rw [if_pos hr2] at h2
        injection h1 with h1
        injection h2 with h2
        rw [← h1, ← h2]
      · rw [if_neg hr2] at h2
        exact absurd h2 (by simp)
    · rw [if_neg hr1] at h1
      exact absurd h1 (by simp)
  exact ⟨hcons, sync_idempotent wFetch [⟨2024, 1, 8⟩, ⟨2024, 1, 5⟩] "t1" "t2"
    initial_data hcons⟩

end FundTracker
